import Mathlib

/-!
Shallow embedding of the `breach-protocol` crate (grid.rs, matrix.rs,
sequence.rs, interner.rs, lib.rs) and proofs about the claims of its
specification.

Conventions of the embedding:
* `usize` values are `Nat`; the coordinate arithmetic of the crate never
  overflows in the relevant ranges, so no modular reduction is needed.
* Interned tokens are opaque comparable handles; for the matrix and the
  pattern matcher they are modelled as `Nat`.
* A Rust function that can panic is modelled with `Option`, `none` being a
  panic (index out of bounds, failed `expect`, failed `debug_assert!`, or a
  `usize` subtraction overflow, which panics in debug builds — the builds the
  crate's own test suite runs under).
* `&mut self` methods are modelled as functions from the state to a pair of
  result and post-state (or just the post-state when the result is `()`).
-/

namespace Breach

/-- Token handles stored in the matrix and matched by sequences
(`InternedString` in the source; equality of interned handles over one
interner is equality of their indices). -/
abbrev Token := Nat

/-- matrix.rs `enum Active`: the currently selectable row or column. -/
inductive Active where
  | row (r : Nat)
  | column (c : Nat)
deriving DecidableEq, Repr

/-- matrix.rs `impl Default for Active`: `Row(0)`. -/
def Active.default : Active := .row 0

/-- matrix.rs `enum Error` (with each variant's recorded fields). -/
inductive MError where
  | outOfBounds (x y width height : Nat)
  | notActive (x y : Nat) (active : Active)
  | alreadySelected (x y : Nat)
deriving DecidableEq, Repr

/-- matrix.rs `Active::toggle`: the new active line if the point lies on the
current one, `Error::NotActive` otherwise. -/
def Active.toggle (a : Active) (x y : Nat) : Except MError Active :=
  match a with
  | .row r => if y ≠ r then .error (.notActive x y a) else .ok (.column x)
  | .column c => if x ≠ c then .error (.notActive x y a) else .ok (.row y)

/-- grid.rs `Grid::idx`: the flat row-major index, `none` out of bounds. -/
def gridIdx (W H x y : Nat) : Option Nat :=
  if x < W ∧ y < H then some (y * W + x) else none

/-- matrix.rs `struct Matrix<'a, WIDTH, HEIGHT>`: the value grid, the
chosen-flag grid (both flat row-major lists of length `W * H`), the selection
stack (`Vec` pushed at the back) and the active line. -/
structure Matrix (W H : Nat) where
  values : List Token
  chosen : List Bool
  selections : List (Nat × Nat)
  active : Active
deriving DecidableEq, Repr

namespace Matrix

variable {W H : Nat}

/-- matrix.rs `Matrix::check_bounds`. -/
def checkBounds (W H x y : Nat) : Except MError Unit :=
  if x < W ∧ y < H then .ok () else .error (.outOfBounds x y W H)

/-- The chosen flag at `(x, y)`; models `self.chosen[(x, y)]` at call sites
where the source has already validated the bounds. -/
def flagAt (m : Matrix W H) (x y : Nat) : Bool :=
  m.chosen.getD (y * W + x) false

/-- The value at `(x, y)`; models `self.values[(x, y)]` at call sites where
the source has already validated the bounds. -/
def valueAt (m : Matrix W H) (x y : Nat) : Token :=
  m.values.getD (y * W + x) 0

/-- matrix.rs `Matrix::select`: bounds check, chosen-flag check, active-line
toggle; on success flips the flag, pushes the coordinate, installs the
toggled active line, and returns the cell's value.  Each early-return error
path leaves the state untouched (`&mut self` not yet written). -/
def select (m : Matrix W H) (x y : Nat) : Except MError Token × Matrix W H :=
  match checkBounds W H x y with
  | .error e => (.error e, m)
  | .ok _ =>
    if m.flagAt x y then (.error (.alreadySelected x y), m)
    else
      match m.active.toggle x y with
      | .error e => (.error e, m)
      | .ok a' =>
        (.ok (m.valueAt x y),
         { m with
            active := a'
            chosen := m.chosen.set (y * W + x) true
            selections := m.selections ++ [(x, y)] })

/-- matrix.rs `Matrix::deselect`: pops the most recent selection (silently a
no-op when the stack is empty), asserts its flag is set (`debug_assert!`,
whose grid indexing also panics out of bounds), clears the flag, and then
evaluates `self.active.toggle(x, y).expect(..)` — whose `Ok` payload the
source DROPS, so `active` is left unchanged; a `none` result is a panic. -/
def deselect (m : Matrix W H) : Option (Matrix W H) :=
  match m.selections.getLast? with
  | none => some m
  | some (x, y) =>
    if ¬ (x < W ∧ y < H) then none
    else if m.flagAt x y = false then none
    else
      match m.active.toggle x y with
      | .error _ => none
      | .ok _ =>
        some { m with
                chosen := m.chosen.set (y * W + x) false
                selections := m.selections.dropLast }

/-- A freshly constructed matrix: `Grid::new` default-initialises the flag
grid to `false` everywhere, the selection stack is empty and the active line
is `Active::default()` = `Row(0)`. -/
def mk0 (W H : Nat) (values : List Token) : Matrix W H :=
  { values := values
    chosen := List.replicate (W * H) false
    selections := []
    active := Active.default }

/-- matrix.rs `Matrix::selected_len`. -/
def selectedLen (m : Matrix W H) : Nat := m.selections.length

/-- matrix.rs `Matrix::selected_values`: the buffer, oldest selection
first. -/
def selectedValues (m : Matrix W H) : List Token :=
  m.selections.map (fun p => m.valueAt p.1 p.2)

end Matrix

/-- The point the matrix.rs `legal_selections` iterator derives from counter
value `t`: `(t, y)` on an active row, `(x, t)` on an active column. -/
def Active.point (a : Active) (t : Nat) : Nat × Nat :=
  match a with
  | .row y => (t, y)
  | .column x => (x, t)

/-- The bounds filter of `legal_selections`, as the Bool the source's
`check_bounds(..).is_ok()` computes. -/
def boundsOk (W H : Nat) (p : Nat × Nat) : Bool :=
  decide (p.1 < W ∧ p.2 < H)

/-- The items yielded by matrix.rs `Matrix::legal_selections`.  The source
filters the unbounded counter stream `(0..)` through `check_bounds`; every
counter value `t ≥ max W H` fails the filter (`legalPoint_oob` below), so the
yielded items are exactly those arising from `t < max W H`, in counter
order. -/
def legalSelections {W H : Nat} (m : Matrix W H) : List (Nat × Nat) :=
  ((List.range (max W H)).map m.active.point).filter (boundsOk W H)

/-- A lawful Rust-style `Ord` whose values carry incidental state: the key is
the first component, compared; the second component is incidental identity,
invisible to `cmp` and `==` (interner.rs's docs call out exactly this case:
"items can compare equal without being precisely equal"). -/
def cmpFst (a b : Nat × Nat) : Ordering := compare a.1 b.1

/-- Whether the active line passes through `(x, y)` (the condition
`Active::toggle` tests): a row requires `y == r`, a column `x == c`. -/
def onActiveLine (a : Active) (x y : Nat) : Bool :=
  match a with
  | .row r => y == r
  | .column c => x == c

/-- The orthogonal line through `(x, y)`: the active line `toggle` installs
on success — `Row(_) ↦ Column(x)`, `Column(_) ↦ Row(y)`. -/
def Active.orth (a : Active) (x y : Nat) : Active :=
  match a with
  | .row _ => .column x
  | .column _ => .row y

/-- The matrix states reachable from a freshly constructed matrix by any
sequence of successful `select` and (non-panicking) `deselect` calls. -/
inductive Reachable (W H : Nat) : Matrix W H → Prop where
  | mk0 (values : List Token) : Reachable W H (Matrix.mk0 W H values)
  | select {m m' : Matrix W H} {x y : Nat} {t : Token} :
      Reachable W H m → m.select x y = (.ok t, m') → Reachable W H m'
  | deselect {m m' : Matrix W H} :
      Reachable W H m → m.deselect = some m' → Reachable W H m'

/-- The state invariant of the selection machine: the flag grid keeps its
size, the stack has no repeats, every stacked coordinate is in bounds with
its flag set, and the stack length equals the number of set flags. -/
def Inv {W H : Nat} (m : Matrix W H) : Prop :=
  m.chosen.length = W * H
  ∧ m.selections.Nodup
  ∧ (∀ p ∈ m.selections, p.1 < W ∧ p.2 < H ∧ m.flagAt p.1 p.2 = true)
  ∧ m.selections.length = m.chosen.count true

/-!
sequence.rs — the pattern matcher.  `Sequence::is_matched` walks the stream
once, keeping one Bool candidate per start offset, then truncates the
candidate vector to `item_count - items.len() + 1` and asks whether any
candidate survived.  Its indexing `self.items[0]`, `self.items[index -
sequence]` and the `usize` subtraction can all panic (the source itself
carries the comment "TODO: there is a panic here, the math is not right");
panics are modelled as `none`.
-/

/-- The inner update loop of `is_matched` at outer position `index`:
`sequences[s] = sequences[s] && self.items[index - s] == item` for each
candidate slot `s` strictly before the freshly pushed one (Rust `&&`
short-circuits, so `items[index - s]` is only read when the slot is still
`true`; reading it out of bounds is a panic). -/
def updateCands (items : List Token) (index : Nat) (item : Token) :
    Nat → List Bool → Option (List Bool)
  | _, [] => some []
  | s, b :: rest => do
      let b' ←
        if b then
          match items.get? (index - s) with
          | some it => some (decide (it = item))
          | none => none
        else some false
      let rest' ← updateCands items index item (s + 1) rest
      return b' :: rest'

/-- The outer loop of `is_matched`: for the stream item at position `count`,
push `self.items[0] == item` (a panic when the target is empty), then run the
inner update over the previously existing candidate slots.  Returns the item
count and the final candidate vector. -/
def matchLoop (items : List Token) :
    Nat → List Bool → List Token → Option (Nat × List Bool)
  | count, seqs, [] => some (count, seqs)
  | count, seqs, item :: rest => do
      let first ←
        match items.get? 0 with
        | some it => some (decide (it = item))
        | none => none
      let front ← updateCands items count item 0 seqs
      matchLoop items (count + 1) (front ++ [first]) rest

/-- sequence.rs `Sequence::is_matched`.  After the loop the source computes
`item_count - self.items.len() + 1` in `usize`: when `item_count <
items.len()` the subtraction overflows, a panic in debug builds (under which
the crate's tests run); then it truncates the candidate vector to that length
and returns whether any retained candidate is `true`. -/
def isMatched (items : List Token) (stream : List Token) : Option Bool := do
  let (count, seqs) ← matchLoop items 0 [] stream
  if count < items.length then none
  else some ((seqs.take (count - items.length + 1)).any id)

/-!
interner.rs — the deduplicating value store.  The store is generic over an
`Ord` type; for Rust, `a == b` holds exactly when `a.cmp(&b) == Equal`, but
equal values may still differ in incidental state (the interner's docs call
this case out).  The embedding is parametrised by the comparison `cmp`, and
the source's `==` tests are rendered as `cmp _ _ = .eq`.
-/

/-- interner.rs `Interner::insert`: `binary_search` over the sorted store —
`Ok` when some element compares equal (the store is returned unchanged, the
pre-existing element kept), `Err` meaning the value is spliced in at its
sorted position.  Modelled as the equivalent linear walk, which computes the
same store on sorted inputs. -/
def internerInsert {α : Type} (cmp : α → α → Ordering) : List α → α → List α
  | [], v => [v]
  | x :: xs, v =>
    match cmp v x with
    | .lt => v :: x :: xs
    | .eq => x :: xs
    | .gt => x :: internerInsert cmp xs v

/-- Inserting each element of a batch individually, in order (the comparison
point of the spec's extend-vs-insert property). -/
def internerInsertEach {α : Type} (cmp : α → α → Ordering)
    (store : List α) (values : List α) : List α :=
  values.foldl (internerInsert cmp) store

/-- One stable insertion step of the batch sort used by `extend`. -/
def insertSortedBy {α : Type} (cmp : α → α → Ordering) (x : α) :
    List α → List α
  | [] => [x]
  | y :: ys =>
    match cmp x y with
    | .lt => x :: y :: ys
    | _ => y :: insertSortedBy cmp x ys

/-- The `values.sort_unstable()` call of `extend`: produces a permutation of
the batch sorted under `cmp` (`sort_unstable` leaves the relative order of
equal elements unspecified; this model keeps them in batch order). -/
def sortBatch {α : Type} (cmp : α → α → Ordering) (l : List α) : List α :=
  l.foldl (fun acc x => insertSortedBy cmp x acc) []

/-- The `merged.last() == Some(&next)` test of `extend` (Rust `==` on an
`Ord` type holds exactly when `cmp` yields `Equal`). -/
def eqLast {α : Type} (cmp : α → α → Ordering) (merged : List α) (next : α) :
    Bool :=
  match merged.getLast? with
  | some last => cmp last next == .eq
  | none => false

/-- The `while let (Some(left_item), Some(right_item))` merge loop of
interner.rs `Interner::extend`: on `Less` take from the store, on `Greater`
from the batch, on `Equal` advance both keeping the store's element; skip the
chosen element when it compares equal to `merged.last()`.  When either side
runs out, the loop ends and BOTH remainders are appended verbatim
(`merged.extend(left); merged.extend(right)`), with no duplicate check. -/
def mergeGo {α : Type} (cmp : α → α → Ordering) :
    List α → List α → List α → List α
  | l :: ls, r :: rs, merged =>
    let step :=
      match cmp l r with
      | .lt => (l, ls, r :: rs)
      | .gt => (r, l :: ls, rs)
      | .eq => (l, ls, rs)
    if eqLast cmp merged step.1 then
      mergeGo cmp step.2.1 step.2.2 merged
    else
      mergeGo cmp step.2.1 step.2.2 (merged ++ [step.1])
  | left, right, merged => merged ++ left ++ right
termination_by left right _ => left.length + right.length
decreasing_by
  all_goals simp only [step] at *
  all_goals cases h : cmp l r
  all_goals simp [h]
  all_goals omega

/-- interner.rs `Interner::extend`: sort the incoming batch, then merge it
against the existing store. -/
def internerExtend {α : Type} (cmp : α → α → Ordering)
    (store : List α) (values : List α) : List α :=
  mergeGo cmp store (sortBatch cmp values) []

/-!
Helper lemmas.
-/

/-- Counter values at or beyond `max W H` never pass the bounds filter of
`legal_selections` (so truncating the counter stream there loses nothing). -/
theorem legalPoint_oob (W H : Nat) (a : Active) (t : Nat) (ht : max W H ≤ t) :
    boundsOk W H (a.point t) = false := by
  cases a with
  | row y =>
    simp only [Active.point, boundsOk, decide_eq_false_iff_not, not_and]
    intro hx
    exact absurd (lt_of_le_of_lt (le_trans (le_max_left W H) ht) hx) (lt_irrefl _)
  | column x =>
    simp only [Active.point, boundsOk, decide_eq_false_iff_not, not_and]
    intro _ hy
    exact absurd (lt_of_le_of_lt (le_trans (le_max_right W H) ht) hy) (lt_irrefl _)

/-- The row-major index bound: in-bounds coordinates map into the grid. -/
theorem rowMajor_lt {W H x y : Nat} (hx : x < W) (hy : y < H) :
    y * W + x < W * H := by
  calc y * W + x < y * W + W := Nat.add_lt_add_left hx _
    _ = (y + 1) * W := by ring
    _ ≤ H * W := Nat.mul_le_mul_right W hy
    _ = W * H := Nat.mul_comm H W

/-- The row-major index is injective on in-bounds coordinates. -/
theorem rowMajor_inj {W x1 y1 x2 y2 : Nat} (h1 : x1 < W) (h2 : x2 < W)
    (he : y1 * W + x1 = y2 * W + x2) : x1 = x2 ∧ y1 = y2 := by
  rcases Nat.lt_trichotomy y1 y2 with hy | hy | hy
  · have : (y1 + 1) * W ≤ y2 * W := Nat.mul_le_mul_right W hy
    have : y1 * W + W ≤ y2 * W := by linarith [this, (by ring : (y1 + 1) * W = y1 * W + W)]
    omega
  · refine ⟨?_, hy⟩
    subst hy
    omega
  · have : (y2 + 1) * W ≤ y1 * W := Nat.mul_le_mul_right W hy
    have : y2 * W + W ≤ y1 * W := by linarith [this, (by ring : (y2 + 1) * W = y2 * W + W)]
    omega

/-- Setting a clear flag increments the `true` count. -/
theorem count_set_true :
    ∀ (l : List Bool) (i : Nat), i < l.length → l.getD i false = false →
      (l.set i true).count true = l.count true + 1
  | [], i, hi, _ => absurd hi (by simp)
  | b :: l, 0, _, hf => by
      simp only [List.getD_cons_zero] at hf
      subst hf
      simp [List.count_cons]
  | b :: l, i + 1, hi, hf => by
      have ih := count_set_true l i (by simpa using hi) (by simpa using hf)
      simp only [List.set_cons_succ, List.count_cons, ih]
      omega

/-- Clearing a set flag decrements the `true` count. -/
theorem count_set_false :
    ∀ (l : List Bool) (i : Nat), l.getD i false = true →
      l.count true = (l.set i false).count true + 1
  | [], i, hf => by simp at hf
  | b :: l, 0, hf => by
      simp only [List.getD_cons_zero] at hf
      subst hf
      simp [List.count_cons]
  | b :: l, i + 1, hf => by
      have ih := count_set_false l i (by simpa using hf)
      simp only [List.set_cons_succ, List.count_cons]
      omega

/-- `List.getD` is untouched by a `set` at a different position. -/
theorem getD_set_ne :
    ∀ (l : List Bool) (i j : Nat) (a d : Bool), i ≠ j →
      (l.set i a).getD j d = l.getD j d
  | [], _, _, _, _, _ => by simp
  | b :: l, 0, 0, a, d, hij => absurd rfl hij
  | b :: l, 0, j + 1, a, d, _ => by simp
  | b :: l, i + 1, 0, a, d, _ => by simp
  | b :: l, i + 1, j + 1, a, d, hij => by
      simpa using getD_set_ne l i j a d (by omega)

/-- `List.getD` reads back an in-range `set`. -/
theorem getD_set_self :
    ∀ (l : List Bool) (i : Nat) (a d : Bool), i < l.length →
      (l.set i a).getD i d = a
  | [], i, _, _, hi => absurd hi (by simp)
  | b :: l, 0, a, d, _ => by simp
  | b :: l, i + 1, a, d, hi => by
      simpa using getD_set_self l i a d (by simpa using hi)

/-- A successful `select` preserves the machine invariant. -/
theorem Inv.select {W H : Nat} {m m' : Matrix W H} {x y : Nat} {t : Token}
    (hinv : Inv m) (h : m.select x y = (.ok t, m')) : Inv m' := by
  obtain ⟨hlen, hnodup, hmem, hcount⟩ := hinv
  unfold Matrix.select Matrix.checkBounds at h
  split at h
  · simp at h
  next hok =>
    have hb : x < W ∧ y < H := by
      by_contra hb
      simp [hb] at hok
    split at h
    · simp at h
    next hf' =>
      have hf : m.flagAt x y = false := by
        cases hfe : m.flagAt x y
        · rfl
        · exact absurd hfe hf'
      split at h
      · simp at h
      next a' hto =>
        simp only [Prod.mk.injEq, Except.ok.injEq] at h
        obtain ⟨-, h2⟩ := h
        subst h2
        have hidx : y * W + x < m.chosen.length := by
          rw [hlen]; exact rowMajor_lt hb.1 hb.2
        have hpnotin : (x, y) ∉ m.selections := by
          intro hp
          have hflag := (hmem _ hp).2.2
          simp only [Matrix.flagAt] at hflag hf
          rw [hf] at hflag
          exact Bool.false_ne_true hflag
        refine ⟨by simpa using hlen, ?_, ?_, ?_⟩
        · exact hnodup.append (List.nodup_singleton _)
            (List.disjoint_singleton.mpr hpnotin)
        · intro q hq
          rcases List.mem_append.mp hq with hq | hq
          · obtain ⟨hq1, hq2, hq3⟩ := hmem _ hq
            refine ⟨hq1, hq2, ?_⟩
            simp only [Matrix.flagAt] at hq3 ⊢
            rw [getD_set_ne]
            · exact hq3
            · intro he
              obtain ⟨hx, hy⟩ := rowMajor_inj hb.1 hq1 he
              exact hpnotin (by rw [hx, hy]; simpa using hq)
          · have hq' : q = (x, y) := by simpa using hq
            subst hq'
            exact ⟨hb.1, hb.2, by
              simp only [Matrix.flagAt]
              exact getD_set_self _ _ _ _ hidx⟩
        · have hstep : (m.chosen.set (y * W + x) true).count true
              = m.chosen.count true + 1 :=
            count_set_true _ _ hidx (by simpa [Matrix.flagAt] using hf)
          simp only [List.length_append, List.length_singleton, hstep, hcount]

/-- A non-panicking `deselect` preserves the machine invariant. -/
theorem Inv.deselect {W H : Nat} {m m' : Matrix W H}
    (hinv : Inv m) (h : m.deselect = some m') : Inv m' := by
  obtain ⟨hlen, hnodup, hmem, hcount⟩ := hinv
  unfold Matrix.deselect at h
  split at h
  next hl =>
    simp only [Option.some.injEq] at h
    subst h
    exact ⟨hlen, hnodup, hmem, hcount⟩
  next x y hl =>
    split at h
    · simp at h
    next hb' =>
      have hb : x < W ∧ y < H := not_not.mp hb'
      split at h
      · simp at h
      next hf' =>
        have hf : m.flagAt x y = true := by
          cases hfe : m.flagAt x y
          · exact absurd hfe hf'
          · rfl
        split at h
        · simp at h
        next a' hto =>
          simp only [Option.some.injEq] at h
          subst h
          have hne : m.selections ≠ [] := by
            intro he; rw [he] at hl; simp at hl
          have hsplit : m.selections.dropLast ++ [(x, y)] = m.selections := by
            have hg := List.getLast?_eq_getLast m.selections hne
            rw [hl] at hg
            have hxy : (x, y) = m.selections.getLast hne := Option.some.inj hg
            rw [hxy]
            exact List.dropLast_append_getLast hne
          have hlast_notin : (x, y) ∉ m.selections.dropLast := by
            have hnodup' : (m.selections.dropLast ++ [(x, y)]).Nodup := by
              rw [hsplit]; exact hnodup
            exact fun hmem' =>
              ((List.nodup_append.mp hnodup').2.2 hmem' (by simp))
          refine ⟨by simpa using hlen, ?_, ?_, ?_⟩
          · exact List.Nodup.sublist (List.dropLast_sublist _) hnodup
          · intro q hq
            have hq' : q ∈ m.selections := List.dropLast_subset _ hq
            obtain ⟨hq1, hq2, hq3⟩ := hmem _ hq'
            refine ⟨hq1, hq2, ?_⟩
            simp only [Matrix.flagAt] at hq3 ⊢
            rw [getD_set_ne]
            · exact hq3
            · intro he
              obtain ⟨hx, hy⟩ := rowMajor_inj hb.1 hq1 he
              exact hlast_notin (by rw [hx, hy]; simpa using hq)
          · have hdec : m.chosen.count true
                = (m.chosen.set (y * W + x) false).count true + 1 :=
              count_set_false _ _ (by simpa [Matrix.flagAt] using hf)
            have hpos : 1 ≤ m.selections.length :=
              List.length_pos.mpr hne
            simp only [List.length_dropLast]
            omega

/-- Every reachable matrix state satisfies the machine invariant. -/
theorem inv_of_reachable {W H : Nat} {m : Matrix W H}
    (h : Reachable W H m) : Inv m := by
  induction h with
  | mk0 values =>
    refine ⟨by simp [Matrix.mk0], by simp [Matrix.mk0], ?_, ?_⟩
    · intro p hp
      simp [Matrix.mk0] at hp
    · simp [Matrix.mk0, List.count_replicate]
  | select _ hstep ih => exact ih.select hstep
  | deselect _ hstep ih => exact ih.deselect hstep

/-!
Claim theorems.
-/

/-- C1 (refuted — code bug): `legal_selections` does NOT exclude chosen
coordinates.  On a 1×1 board, after selecting `(0, 0)`, the enumeration still
yields `(0, 0)` although its chosen flag is set, and the `select` the solver
then performs on it fails with `AlreadySelected` — the exact panic site of
`solve_inner`'s `expect("legal selection remained legal")`. -/
theorem legalSelections_yields_already_chosen :
    legalSelections ((Matrix.mk0 1 1 [7]).select 0 0).2 = [(0, 0)]
    ∧ (((Matrix.mk0 1 1 [7]).select 0 0).2).flagAt 0 0 = true
    ∧ ((((Matrix.mk0 1 1 [7]).select 0 0).2).select 0 0).1
        = .error (.alreadySelected 0 0) :=
  ⟨rfl, rfl, rfl⟩

/-- C2 (refuted — code bug): `deselect` after a `select` restores the
chosen flags and the stack, but NOT the active line: the source computes
`self.active.toggle(x, y)` and drops the result instead of assigning it, so
after select `(0, 0)` then deselect on a 1×1 board the active line remains
`Column(0)` while the pre-select state had `Row(0)`. -/
theorem deselect_leaves_active_toggled :
    Matrix.deselect ((Matrix.mk0 1 1 [7]).select 0 0).2
      = some { values := [7], chosen := [false], selections := [],
               active := .column 0 }
    ∧ (Matrix.mk0 1 1 [7]).active = .row 0
    ∧ Active.column 0 ≠ Active.row 0 :=
  ⟨rfl, rfl, by decide⟩

/-- C3 (refuted — code bug): on the spec's third example (the stream of the
repository's own test `inner_example_too_long`, which asserts a match),
`is_matched` panics — the matured candidate at offset 3 keeps being updated
and indexes `items[4]` of the 4-element target at stream position 7 — rather
than returning `true`.  The first repository example still evaluates to
`true`, confirming the embedding against the sources' passing test. -/
theorem isMatched_panics_on_repo_example :
    isMatched [0, 1, 0, 2] [0, 1, 2, 0, 1, 0, 2, 1, 2, 0] = none
    ∧ isMatched [0, 1, 0, 2] [0, 1, 2, 0, 1, 0, 2] = some true :=
  ⟨rfl, rfl⟩

/-- C4 (refuted — code bug): degenerate inputs panic instead of returning
`false`: an empty target indexes `self.items[0]` out of bounds on the first
stream item, and a stream shorter than the target makes
`item_count - self.items.len() + 1` underflow in `usize`. -/
theorem isMatched_panics_on_degenerate_inputs :
    isMatched [] [0] = none ∧ isMatched [0, 1] [0] = none :=
  ⟨rfl, rfl⟩

/-- C5 (refuted — code bug): the `legal_selections` enumeration is not a
terminating iterator.  On a 1×1 board the in-bounds items are exhausted after
`(0, 0)` (counter value 0), and NO later counter value ever passes the bounds
filter — so the source's `(0..).filter(..)` never produces `None` and the
`for` loop in `solve_inner` that drains it never completes; `solve` does not
terminate. -/
theorem legalSelections_counter_never_terminates :
    legalSelections (Matrix.mk0 1 1 [7]) = [(0, 0)]
    ∧ ∀ t : Nat, boundsOk 1 1 ((Active.row 0).point (1 + t)) = false := by
  refine ⟨rfl, fun t => legalPoint_oob 1 1 _ _ ?_⟩
  simp

/-- C6 (refuted — code bug): `extend` can leave the store with duplicates
(and hence not strictly sorted).  From the empty interner, the single
operation `extend([5, 5])` skips the merge loop entirely (the loop requires
both sides non-empty) and appends the sorted batch verbatim, giving the
store `[5, 5]` — contradicting the interner's own doc "Only a single
instance of each unique value is stored". -/
theorem extend_breaks_dedup_invariant :
    internerExtend compare ([] : List Nat) [5, 5] = [5, 5]
    ∧ ¬ (internerExtend compare ([] : List Nat) [5, 5]).Nodup
    ∧ ¬ List.Chain' (· < ·) (internerExtend compare ([] : List Nat) [5, 5]) := by
  have hs : sortBatch compare [5, 5] = [5, 5] := by decide
  have h : internerExtend compare ([] : List Nat) [5, 5] = [5, 5] := by
    unfold internerExtend
    rw [hs]
    simp [mergeGo.eq_def]
  refine ⟨h, ?_, ?_⟩
  · rw [h]; decide
  · rw [h]
    simp [List.chain'_cons]

/-- C7 (refuted — code bug): `extend(batch)` is not set-equal to inserting
the batch elements individually.  With equal-comparing values of distinct
identity, `extend [(5,0), (5,1)]` on the empty store keeps BOTH, while the
individual inserts keep only the first: `(5, 1)` is in the extend store and
absent from the insert store. -/
theorem extend_not_set_equal_to_inserts :
    internerExtend cmpFst ([] : List (Nat × Nat)) [(5, 0), (5, 1)]
        = [(5, 0), (5, 1)]
    ∧ internerInsertEach cmpFst ([] : List (Nat × Nat)) [(5, 0), (5, 1)]
        = [(5, 0)]
    ∧ (5, 1) ∈ internerExtend cmpFst ([] : List (Nat × Nat)) [(5, 0), (5, 1)]
    ∧ (5, 1) ∉ internerInsertEach cmpFst ([] : List (Nat × Nat))
        [(5, 0), (5, 1)] := by
  have hs : sortBatch cmpFst [(5, 0), (5, 1)] = [(5, 0), (5, 1)] := by decide
  have h : internerExtend cmpFst ([] : List (Nat × Nat)) [(5, 0), (5, 1)]
      = [(5, 0), (5, 1)] := by
    unfold internerExtend
    rw [hs]
    simp [mergeGo.eq_def]
  refine ⟨h, rfl, ?_, ?_⟩
  · rw [h]; decide
  · decide

/-- C8 (confirmed): in every matrix state reachable by successful `select`
and `deselect` calls, the selection stack has no repeated coordinate and its
length equals the number of set chosen flags. -/
theorem reachable_stack_invariant {W H : Nat} (m : Matrix W H)
    (h : Reachable W H m) :
    m.selections.Nodup ∧ m.selections.length = m.chosen.count true :=
  ⟨(inv_of_reachable h).2.1, (inv_of_reachable h).2.2.2⟩

/-- Witness for C8 at a concrete reachable state (1×1 board after one
successful select). -/
theorem reachable_stack_invariant_witness :
    ((Matrix.mk0 1 1 [7]).select 0 0).2.selections.Nodup
    ∧ ((Matrix.mk0 1 1 [7]).select 0 0).2.selections.length
        = ((Matrix.mk0 1 1 [7]).select 0 0).2.chosen.count true :=
  reachable_stack_invariant _
    (Reachable.select (Reachable.mk0 [7]) (rfl :
      (Matrix.mk0 1 1 [7]).select 0 0 = _))

/-- C9 (confirmed): `select` fails with `OutOfBounds` exactly off the grid;
otherwise with `AlreadySelected` exactly when the chosen flag is set;
otherwise with `NotActive` exactly when the coordinate is off the active
line; and otherwise succeeds, setting the flag, pushing the coordinate, and
installing the orthogonal active line through the point. -/
theorem select_case_analysis {W H : Nat} (m : Matrix W H) (x y : Nat) :
    ((m.select x y).1 = .error (.outOfBounds x y W H) ↔ ¬ (x < W ∧ y < H))
    ∧ ((x < W ∧ y < H) →
        ((m.select x y).1 = .error (.alreadySelected x y)
          ↔ m.flagAt x y = true))
    ∧ ((x < W ∧ y < H) → m.flagAt x y = false →
        ((m.select x y).1 = .error (.notActive x y m.active)
          ↔ onActiveLine m.active x y = false))
    ∧ ((x < W ∧ y < H) → m.flagAt x y = false →
        onActiveLine m.active x y = true →
        m.select x y
          = (.ok (m.valueAt x y),
             { m with
                active := m.active.orth x y
                chosen := m.chosen.set (y * W + x) true
                selections := m.selections ++ [(x, y)] })) := by
  by_cases hb : x < W ∧ y < H
  · obtain ⟨hxW, hyH⟩ := hb
    cases hfe : m.flagAt x y
    · cases ha : m.active with
      | row r =>
        by_cases hyr : y = r
        · subst hyr
          simp [Matrix.select, Matrix.checkBounds, hxW, hyH, hfe, ha,
            Active.toggle, onActiveLine, Active.orth]
        · simp [Matrix.select, Matrix.checkBounds, hxW, hyH, hfe, ha, hyr,
            Active.toggle, onActiveLine, Active.orth]
      | column c =>
        by_cases hxc : x = c
        · subst hxc
          simp [Matrix.select, Matrix.checkBounds, hxW, hyH, hfe, ha,
            Active.toggle, onActiveLine, Active.orth]
        · simp [Matrix.select, Matrix.checkBounds, hxW, hyH, hfe, ha, hxc,
            Active.toggle, onActiveLine, Active.orth]
    · simp [Matrix.select, Matrix.checkBounds, hxW, hyH, hfe]
  · simp [Matrix.select, Matrix.checkBounds, hb]

/-- Witness for C9: the success case on a fresh 2×2 board at `(1, 0)`. -/
theorem select_case_analysis_witness :
    (Matrix.mk0 2 2 [1, 2, 3, 4]).select 1 0
      = (.ok 2,
         { values := [1, 2, 3, 4], chosen := [false, true, false, false],
           selections := [(1, 0)], active := .column 1 }) :=
  (select_case_analysis (Matrix.mk0 2 2 [1, 2, 3, 4]) 1 0).2.2.2
    (by decide) rfl rfl

/-- C10 (confirmed): `select` is atomic on failure — every error return
leaves the matrix exactly as it was (each error path of the source returns
before any field is written). -/
theorem select_error_unchanged {W H : Nat} (m : Matrix W H) (x y : Nat)
    (h : ∃ e, (m.select x y).1 = Except.error e) : (m.select x y).2 = m := by
  obtain ⟨e, he⟩ := h
  rcases hs : m.select x y with ⟨res, m2⟩
  rw [hs] at he
  unfold Matrix.select Matrix.checkBounds at hs
  split at hs
  · simp only [Prod.mk.injEq] at hs
    exact hs.2.symm
  · split at hs
    · simp only [Prod.mk.injEq] at hs
      exact hs.2.symm
    · split at hs
      · simp only [Prod.mk.injEq] at hs
        exact hs.2.symm
      · simp only [Prod.mk.injEq] at hs
        rw [← hs.1] at he
        simp at he

/-- Witness for C10: an out-of-bounds select on a 1×1 board leaves the
state unchanged. -/
theorem select_error_unchanged_witness :
    ((Matrix.mk0 1 1 [7]).select 3 3).2 = Matrix.mk0 1 1 [7] :=
  select_error_unchanged _ 3 3 ⟨.outOfBounds 3 3 1 1, rfl⟩

end Breach
